import Mathlib

/-!
Verification development for the SFTP-to-shared-drive batch script
(`SFTP-to-Google-Shared-Drive.py`).  The Python functions
`download_files_from_sftp`, `upload_extracted_files`, `aggregate_index_csv`,
`process_zip_archive`, `process_all_zip_archives` and the `__main__`
orchestration are shallowly embedded as total Lean functions over explicit
directory / archive states; filesystem contents are lists of named entries,
and external collaborators (SFTP transfer, Drive upload) are modelled by the
success/failure data they feed back into the control flow.
-/

namespace SFTPDrive

/-- ASCII lowercasing of a string, character by character
(models Python `str.lower()` on the ASCII names this script handles). -/
def lowerStr (s : String) : String := ⟨s.data.map Char.toLower⟩

/-- Substring test: models Python `pat in s`. -/
def containsStr (s pat : String) : Bool := decide (pat.data <:+: s.data)

/-- Models Python `name.lower().endswith(".csv")`. -/
def csvExt (s : String) : Bool := decide ((".csv").data <:+ (lowerStr s).data)

/-- The structural marker of an index CSV header
(`"File name" in header_line` in the source). -/
def headerLabel : String := "File name"

/-- The identity-number sentinel used by the renamer. -/
def sentinel : String := "not admitted yet"

/-- The decimal digit character for `d` (`'0'` + d). -/
def digitCh (d : Nat) : Char := Char.ofNat (48 + d)

/-- Fuelled big-endian decimal digit list of `n`
(the digits Python's `str(counter)` produces). -/
def decDigitsAux : Nat → Nat → List Char
  | 0, _ => []
  | fuel + 1, n =>
    if n < 10 then [digitCh n]
    else decDigitsAux fuel (n / 10) ++ [digitCh (n % 10)]

/-- Decimal rendering of a natural number, e.g. `natDec 12 = "12"`;
models Python string interpolation of the collision counter. -/
def natDec (n : Nat) : String := ⟨decDigitsAux (n + 1) n⟩

/-- Numeric value of a digit character. -/
def decVal (c : Char) : Nat := c.toNat - 48

/-- Decode a big-endian digit list back to the number it denotes. -/
def decodeDec (cs : List Char) : Nat := cs.foldl (fun a c => a * 10 + decVal c) 0

theorem decVal_digitCh : ∀ d < 10, decVal (digitCh d) = d := by decide

theorem decodeDec_append_digit (xs : List Char) (c : Char) :
    decodeDec (xs ++ [c]) = decodeDec xs * 10 + decVal c := by
  simp [decodeDec, List.foldl_append]

theorem decodeDec_decDigitsAux :
    ∀ (fuel n : Nat), n < fuel → decodeDec (decDigitsAux fuel n) = n := by
  intro fuel
  induction fuel with
  | zero => intro n h; omega
  | succ fuel ih =>
    intro n h
    by_cases h10 : n < 10
    · simp [decDigitsAux, h10, decodeDec, decVal_digitCh n h10]
    · have hpos : 0 < n := by omega
      have hdiv : n / 10 < n := Nat.div_lt_self hpos (by omega)
      have hfuel : n / 10 < fuel := by omega
      simp only [decDigitsAux, if_neg h10]
      rw [decodeDec_append_digit, ih _ hfuel, decVal_digitCh _ (Nat.mod_lt _ (by omega))]
      omega

theorem str_eq_of_data_eq : ∀ {s t : String}, s.data = t.data → s = t := by
  intro s t h
  cases s; cases t; exact congrArg String.mk h

theorem natDec_inj : ∀ {m n : Nat}, natDec m = natDec n → m = n := by
  intro m n h
  have hd : decDigitsAux (m + 1) m = decDigitsAux (n + 1) n := congrArg String.data h
  have := decodeDec_decDigitsAux (m + 1) m (by omega)
  rw [hd, decodeDec_decDigitsAux (n + 1) n (by omega)] at this
  omega

theorem decDigitsAux_ne_nil (fuel n : Nat) (h : n < fuel) : decDigitsAux fuel n ≠ [] := by
  match fuel with
  | fuel + 1 =>
    by_cases h10 : n < 10 <;> simp [decDigitsAux, h10]

theorem natDec_length_pos (n : Nat) : 0 < (natDec n).length := by
  have := decDigitsAux_ne_nil (n + 1) n (by omega)
  have : (decDigitsAux (n + 1) n).length ≠ 0 := fun hc => this (List.eq_nil_of_length_eq_zero hc)
  simpa [natDec, String.length] using Nat.pos_of_ne_zero this

/-- Models Python `os.path.splitext` on a bare file name: split at the last
dot, except that a name whose characters before that dot are all dots
(e.g. `".bashrc"`) is not split. -/
def splitExt (s : String) : String × String :=
  let cs := s.data
  let afterRev := cs.reverse.takeWhile (fun c => !(c == '.'))
  if afterRev.length == cs.length then (s, "")
  else
    let rootRev := (cs.reverse.drop afterRev.length).drop 1
    if rootRev.all (fun c => c == '.') then (s, "")
    else (⟨rootRev.reverse⟩, ⟨'.' :: afterRev.reverse⟩)

/-- A file of an extraction directory (or an archive entry): its name, the
first line obtained when reading it as text (`none` when undecodable), and
its parsed CSV content (header row and data rows; `none` when it cannot be
opened as a CSV). -/
structure Entry where
  name : String
  firstLine : Option String
  csv : Option (List String × List (List String))
deriving DecidableEq, Repr

/-- The names currently present in a directory. -/
def dirNames (d : List Entry) : List String := d.map Entry.name

/-- One index row as `csv.DictReader` hands it to `process_zip_archive`:
`row.get` of the four consulted columns (`none` for a missing column or a
value padded as `None` on a short row). -/
structure Row where
  fileName : Option String
  icId : Option String
  preferred : Option String
  last : Option String
deriving DecidableEq, Repr

/-- `ic_id = row.get("IC ID Number"); if not ic_id: ic_id = "not admitted yet"`. -/
def effIc : Option String → String
  | none => sentinel
  | some s => if s = "" then sentinel else s

/-- The stem `"{last}, {first} - {ic_id}"` of the rename target. -/
def nameStem (last first ic : String) : String :=
  last ++ ", " ++ first ++ " - " ++ ic

/-- The candidate file names tried by the collision loop, in order:
`cand 0` is the bare target name, `cand n` (n ≥ 1) carries the bracketed
sequence suffix `" (n)"` before the extension. -/
def cand (last first ic ext : String) : Nat → String
  | 0 => nameStem last first ic ++ ext
  | n + 1 => nameStem last first ic ++ " (" ++ natDec (n + 1) ++ ")" ++ ext

/-- The collision `while os.path.exists(candidate_path)` loop: starting at
candidate index `i`, return the first candidate not present in `names`
(with enough fuel to scan past every occupied name). -/
def findFreeFrom (names : List String) (c : Nat → String) : Nat → Nat → String
  | 0, i => c i
  | fuel + 1, i => if c i ∈ names then findFreeFrom names c fuel (i + 1) else c i

/-- The final name `process_zip_archive` chooses for a row with stem fields
`last/first/ic` and extension `ext` in a directory holding `names`. -/
def resolveName (names : List String) (last first ic ext : String) : String :=
  findFreeFrom names (cand last first ic ext) (names.length + 1) 0

/-- `os.rename(original_file_path, new_file_path)`: the entry named `orig`
is removed and re-appears under `final`, contents unchanged. -/
def renameFile (dir : List Entry) (orig final : String) : List Entry :=
  match dir with
  | [] => []
  | e :: rest =>
    if e.name = orig then rest ++ [{ e with name := final }]
    else e :: renameFile rest orig final

/-- What happened to one index row. -/
inductive RowResult where
  | skipped
  | renamed (orig final : String)
  | missing (orig : String)
deriving DecidableEq, Repr

/-- The body of the per-row loop of `process_zip_archive`: validate the
required fields, resolve the identity number, build the target name, run
the collision loop, and rename the payload file if it exists. -/
def processRow (dir : List Entry) (r : Row) : List Entry × RowResult :=
  match r.fileName, r.preferred, r.last with
  | some orig, some first, some last =>
    if orig = "" ∨ first = "" ∨ last = "" then (dir, .skipped)
    else
      let ic := effIc r.icId
      let ext := (splitExt orig).2
      let final := resolveName (dirNames dir) last first ic ext
      if orig ∈ dirNames dir then (renameFile dir orig final, .renamed orig final)
      else (dir, .missing orig)
  | _, _, _ => (dir, .skipped)

/-- The whole per-row loop over the index rows, threading the directory. -/
def processRows (dir : List Entry) : List Row → List Entry × List RowResult
  | [] => (dir, [])
  | r :: rs =>
    let p := processRow dir r
    let q := processRows p.1 rs
    (q.1, p.2 :: q.2)

/-- The final names assigned by a run of the per-row loop. -/
def finalsOf (rs : List RowResult) : List String :=
  rs.filterMap fun r =>
    match r with
    | .renamed _ f => some f
    | _ => none

theorem cand_zero (last first ic ext : String) :
    cand last first ic ext 0 = nameStem last first ic ++ ext := rfl

theorem cand_succ_length (last first ic ext : String) (n : Nat) :
    (cand last first ic ext (n + 1)).length
      = (nameStem last first ic).length + (natDec (n + 1)).length + 3 + ext.length := by
  have h2 : (" (" : String).length = 2 := rfl
  have h1 : (")" : String).length = 1 := rfl
  simp only [cand, String.length_append, h2, h1]
  omega

theorem cand_inj (last first ic ext : String) : Function.Injective (cand last first ic ext) := by
  intro m n h
  match m, n with
  | 0, 0 => rfl
  | 0, n + 1 =>
    exfalso
    have hl := congrArg String.length h
    rw [cand_succ_length] at hl
    simp only [cand_zero, String.length_append] at hl
    have := natDec_length_pos (n + 1)
    omega
  | m + 1, 0 =>
    exfalso
    have hl := congrArg String.length h
    rw [cand_succ_length] at hl
    simp only [cand_zero, String.length_append] at hl
    have := natDec_length_pos (m + 1)
    omega
  | m + 1, n + 1 =>
    have hd := congrArg String.data h
    simp only [cand, String.data_append, List.append_assoc] at hd
    have hd1 := List.append_cancel_left hd
    have hd2 := List.append_cancel_left hd1
    rw [← List.append_assoc, ← List.append_assoc] at hd2
    have hd3 := List.append_cancel_right hd2
    have hd4 := List.append_cancel_right hd3
    have := natDec_inj (str_eq_of_data_eq hd4)
    omega

theorem inj_all_mem_le (c : Nat → String) (hc : Function.Injective c) (names : List String)
    (j : Nat) (h : ∀ k, k < j → c k ∈ names) : j ≤ names.length := by
  have hsub : (Finset.range j).image c ⊆ names.toFinset := by
    intro x hx
    simp only [Finset.mem_image, Finset.mem_range] at hx
    obtain ⟨k, hk, rfl⟩ := hx
    exact List.mem_toFinset.mpr (h k hk)
  have hcard := Finset.card_le_card hsub
  rw [Finset.card_image_of_injective _ hc, Finset.card_range] at hcard
  exact hcard.trans names.toFinset_card_le

theorem findFreeFrom_eq (names : List String) (c : Nat → String) :
    ∀ (fuel i j : Nat), i ≤ j → c j ∉ names → (∀ k, i ≤ k → k < j → c k ∈ names) →
      j ≤ i + fuel → findFreeFrom names c fuel i = c j := by
  intro fuel
  induction fuel with
  | zero =>
    intro i j hij hj hb hfuel
    have : i = j := by omega
    subst this
    rfl
  | succ fuel ih =>
    intro i j hij hj hb hfuel
    by_cases hmem : c i ∈ names
    · have hne : i ≠ j := fun he => hj (he ▸ hmem)
      simp only [findFreeFrom, if_pos hmem]
      exact ih (i + 1) j (by omega) hj (fun k h1 h2 => hb k (by omega) h2) (by omega)
    · have heq : i = j := by
        by_contra hne
        exact hmem (hb i le_rfl (by omega))
      subst heq
      simp only [findFreeFrom, if_neg hmem]

theorem resolveName_eq (names : List String) (last first ic ext : String) (j : Nat)
    (hj : cand last first ic ext j ∉ names)
    (hb : ∀ k, k < j → cand last first ic ext k ∈ names) :
    resolveName names last first ic ext = cand last first ic ext j := by
  have hle : j ≤ names.length := inj_all_mem_le _ (cand_inj last first ic ext) names j hb
  exact findFreeFrom_eq names _ (names.length + 1) 0 j (Nat.zero_le _) hj
    (fun k _ h2 => hb k h2) (by omega)

theorem resolveName_not_mem (names : List String) (last first ic ext : String) :
    resolveName names last first ic ext ∉ names := by
  have hex : ∃ n, cand last first ic ext n ∉ names := by
    by_contra hall
    push_neg at hall
    have := inj_all_mem_le _ (cand_inj last first ic ext) names (names.length + 1)
      (fun k _ => hall k)
    omega
  have hj := Nat.find_spec hex
  have hb : ∀ k, k < Nat.find hex → cand last first ic ext k ∈ names := by
    intro k hk
    have := Nat.find_min hex hk
    exact not_not.mp this
  rw [resolveName_eq names last first ic ext (Nat.find hex) hj hb]
  exact hj

theorem dirNames_renameFile :
    ∀ (dir : List Entry) (orig final : String), orig ∈ dirNames dir →
      dirNames (renameFile dir orig final) = (dirNames dir).erase orig ++ [final] := by
  intro dir
  induction dir with
  | nil => intro orig final h; simp [dirNames] at h
  | cons e rest ih =>
    intro orig final h
    by_cases he : e.name = orig
    · subst he
      simp only [renameFile, eq_self_iff_true, if_true, dirNames, List.map_append,
        List.map_cons, List.map_nil, List.erase_cons_head]
    · have hmem : orig ∈ dirNames rest := by
        simp only [dirNames, List.map_cons, List.mem_cons] at h
        rcases h with h | h
        · exact absurd h.symm he
        · exact h
      have hIH := ih orig final hmem
      simp only [renameFile, if_neg he, dirNames, List.map_cons]
      rw [List.erase_cons_tail (by simpa using he)]
      simp only [dirNames] at hIH
      rw [hIH, List.cons_append]

theorem processRows_uniform (l0 f0 : String) (icOpt : Option String) (ext0 : String)
    (hf : f0 ≠ "") (hl : l0 ≠ "") :
    ∀ (origs : List String) (dir : List Entry) (j : Nat),
      (dirNames dir).Nodup →
      origs.Nodup →
      (∀ o ∈ origs, o ∈ dirNames dir ∧ o ≠ "" ∧ (splitExt o).2 = ext0) →
      (∀ n, cand l0 f0 (effIc icOpt) ext0 n ∈ dirNames dir ↔ n < j) →
      (∀ o ∈ origs, ∀ n, o ≠ cand l0 f0 (effIc icOpt) ext0 n) →
      (processRows dir (origs.map fun o => Row.mk (some o) icOpt (some f0) (some l0))).2
        = (origs.enumFrom j).map
            (fun p => RowResult.renamed p.2 (cand l0 f0 (effIc icOpt) ext0 p.1)) := by
  intro origs
  induction origs with
  | nil => intro dir j _ _ _ _ _; rfl
  | cons o os ih =>
    intro dir j hnd hnodup hor hcand hshape
    obtain ⟨hmem, hne, hext⟩ := hor o (List.mem_cons_self o os)
    have hguard : ¬(o = "" ∨ f0 = "" ∨ l0 = "") := by simp [hne, hf, hl]
    have hfree : cand l0 f0 (effIc icOpt) ext0 j ∉ dirNames dir := by
      intro hmemj
      exact absurd ((hcand j).mp hmemj) (lt_irrefl j)
    have hbusy : ∀ k, k < j → cand l0 f0 (effIc icOpt) ext0 k ∈ dirNames dir :=
      fun k hk => (hcand k).mpr hk
    have hres : resolveName (dirNames dir) l0 f0 (effIc icOpt) ext0
        = cand l0 f0 (effIc icOpt) ext0 j :=
      resolveName_eq _ _ _ _ _ j hfree hbusy
    have hstep : processRow dir (Row.mk (some o) icOpt (some f0) (some l0))
        = (renameFile dir o (cand l0 f0 (effIc icOpt) ext0 j),
           RowResult.renamed o (cand l0 f0 (effIc icOpt) ext0 j)) := by
      simp only [processRow, if_neg hguard, hext, hres, if_pos hmem]
    have hnames1 : dirNames (renameFile dir o (cand l0 f0 (effIc icOpt) ext0 j))
        = (dirNames dir).erase o ++ [cand l0 f0 (effIc icOpt) ext0 j] :=
      dirNames_renameFile dir o _ hmem
    have hoos : o ∉ os := (List.nodup_cons.mp hnodup).1
    have hnd1 : (dirNames (renameFile dir o (cand l0 f0 (effIc icOpt) ext0 j))).Nodup := by
      rw [hnames1]
      refine List.nodup_append.mpr ⟨hnd.erase o, List.nodup_singleton _, ?_⟩
      intro a ha hb
      simp only [List.mem_singleton] at hb
      subst hb
      exact hfree (List.mem_of_mem_erase ha)
    have hmemiff : ∀ a, a ∈ dirNames (renameFile dir o (cand l0 f0 (effIc icOpt) ext0 j))
        ↔ (a ≠ o ∧ a ∈ dirNames dir) ∨ a = cand l0 f0 (effIc icOpt) ext0 j := by
      intro a
      rw [hnames1, List.mem_append, List.mem_singleton, hnd.mem_erase_iff]
    have hor1 : ∀ o2 ∈ os, o2 ∈ dirNames (renameFile dir o (cand l0 f0 (effIc icOpt) ext0 j))
        ∧ o2 ≠ "" ∧ (splitExt o2).2 = ext0 := by
      intro o2 ho2
      obtain ⟨hm2, hn2, he2⟩ := hor o2 (List.mem_cons_of_mem o ho2)
      refine ⟨(hmemiff o2).mpr (Or.inl ⟨?_, hm2⟩), hn2, he2⟩
      intro heq
      exact hoos (heq ▸ ho2)
    have hcand1 : ∀ n, cand l0 f0 (effIc icOpt) ext0 n
        ∈ dirNames (renameFile dir o (cand l0 f0 (effIc icOpt) ext0 j)) ↔ n < j + 1 := by
      intro n
      rw [hmemiff]
      constructor
      · rintro (⟨_, hmn⟩ | heq)
        · exact Nat.lt_succ_of_lt ((hcand n).mp hmn)
        · exact (cand_inj l0 f0 (effIc icOpt) ext0 heq) ▸ Nat.lt_succ_self j
      · intro hn
        rcases Nat.lt_succ_iff_lt_or_eq.mp hn with hn | hn
        · exact Or.inl ⟨fun heq => hshape o (List.mem_cons_self o os) n heq.symm,
            (hcand n).mpr hn⟩
        · exact Or.inr (hn ▸ rfl)
    have hshape1 : ∀ o2 ∈ os, ∀ n, o2 ≠ cand l0 f0 (effIc icOpt) ext0 n :=
      fun o2 ho2 => hshape o2 (List.mem_cons_of_mem o ho2)
    simp only [List.map_cons, processRows, hstep]
    rw [ih _ (j + 1) hnd1 (List.nodup_cons.mp hnodup).2 hor1 hcand1 hshape1]
    simp [List.enumFrom_cons]

/--
**C1 (amended).**  For a block of index rows carrying identical metadata
(same family name, given name, identity field and payload extension) whose
referenced payload files are pairwise distinct, present in the extraction
directory and not themselves shaped like a candidate target name, and when
no candidate target name (bare or suffixed) pre-exists in the directory:
the renaming pass renames the first row's file to the bare target
`"{last}, {first} - {ic}{ext}"` and the (N+1)-st row's file to the
suffixed variant `" (N)"`, so no two rows are ever assigned the same final
name.  (The original claim, without the freshness proviso, is refuted by
`c1_counterexample`.)
-/
theorem c1_renamer_collision_policy (l0 f0 : String) (icOpt : Option String)
    (ext0 : String) (origs : List String) (dir : List Entry)
    (hf : f0 ≠ "") (hl : l0 ≠ "")
    (hnd : (dirNames dir).Nodup) (hnodup : origs.Nodup)
    (hor : ∀ o ∈ origs, o ∈ dirNames dir ∧ o ≠ "" ∧ (splitExt o).2 = ext0)
    (hfresh : ∀ n, cand l0 f0 (effIc icOpt) ext0 n ∉ dirNames dir)
    (hshape : ∀ o ∈ origs, ∀ n, o ≠ cand l0 f0 (effIc icOpt) ext0 n) :
    (processRows dir (origs.map fun o => Row.mk (some o) icOpt (some f0) (some l0))).2
      = origs.enum.map (fun p => RowResult.renamed p.2 (cand l0 f0 (effIc icOpt) ext0 p.1))
    ∧ (finalsOf ((processRows dir
        (origs.map fun o => Row.mk (some o) icOpt (some f0) (some l0))).2)).Nodup := by
  have hmain := processRows_uniform l0 f0 icOpt ext0 hf hl origs dir 0 hnd hnodup hor
    (fun n => by simp [hfresh n]) hshape
  have henum : origs.enum = origs.enumFrom 0 := rfl
  constructor
  · rw [henum]; exact hmain
  · rw [hmain]
    have hfin : finalsOf ((origs.enumFrom 0).map
        (fun p => RowResult.renamed p.2 (cand l0 f0 (effIc icOpt) ext0 p.1)))
        = (origs.enumFrom 0).map (fun p => cand l0 f0 (effIc icOpt) ext0 p.1) := by
      simp only [finalsOf, List.filterMap_map]
      rw [show ((fun r => match r with
            | RowResult.renamed _ f => some f
            | _ => none)
          ∘ fun p : Nat × String => RowResult.renamed p.2 (cand l0 f0 (effIc icOpt) ext0 p.1))
          = some ∘ (fun p : Nat × String => cand l0 f0 (effIc icOpt) ext0 p.1) from rfl]
      rw [List.filterMap_eq_map]
    rw [hfin]
    have : (origs.enumFrom 0).map (fun p => cand l0 f0 (effIc icOpt) ext0 p.1)
        = ((origs.enumFrom 0).map Prod.fst).map (cand l0 f0 (effIc icOpt) ext0) := by
      rw [List.map_map]; rfl
    rw [this, List.enumFrom_map_fst]
    exact (List.nodup_range' _ _).map (cand_inj l0 f0 (effIc icOpt) ext0)

/--
**C1 (counterexample).**  With the row's required fields present and its
referenced payload file `a.jpg` present in the extraction directory, the
first (and only) row mapping to the base target `Smith, Ann - 1.jpg` does
NOT keep the bare name: a pre-existing file of that name makes the
collision loop hand the row the suffixed name `Smith, Ann - 1 (1).jpg`.
-/
theorem c1_counterexample :
    (processRows
        [Entry.mk "a.jpg" none none, Entry.mk "Smith, Ann - 1.jpg" none none]
        [Row.mk (some "a.jpg") (some "1") (some "Ann") (some "Smith")]).2
      = [RowResult.renamed "a.jpg" "Smith, Ann - 1 (1).jpg"]
    ∧ "Smith, Ann - 1 (1).jpg" ≠ "Smith, Ann - 1.jpg" := by
  constructor
  · decide
  · decide

/-- Helper for discharging the freshness hypotheses of
`c1_renamer_collision_policy` on concrete directories: every suffixed
candidate is longer than every name around, and the bare candidate is
checked directly. -/
theorem cand_not_mem_of_short (l f ic ext : String) (names : List String)
    (h0 : cand l f ic ext 0 ∉ names)
    (hlen : ∀ s ∈ names, s.length < (nameStem l f ic).length + 3 + ext.length) :
    ∀ n, cand l f ic ext n ∉ names := by
  intro n
  match n with
  | 0 => exact h0
  | n + 1 =>
    intro hmem
    have hlt := hlen _ hmem
    have hlg := cand_succ_length l f ic ext n
    have := natDec_length_pos (n + 1)
    omega

/-- Companion helper: a short name differing from the bare candidate is no
candidate at all. -/
theorem ne_cand_of_short (l f ic ext o : String)
    (h0 : o ≠ cand l f ic ext 0)
    (hlen : o.length < (nameStem l f ic).length + 3 + ext.length) :
    ∀ n, o ≠ cand l f ic ext n := by
  intro n
  match n with
  | 0 => exact h0
  | n + 1 =>
    intro heq
    have hlg := cand_succ_length l f ic ext n
    have := natDec_length_pos (n + 1)
    have : o.length = (cand l f ic ext (n + 1)).length := by rw [heq]
    omega

/-- Witness for `c1_renamer_collision_policy`: spec Scenario 3 — two rows
with identical metadata; the first keeps `Smith, Ann - 12345.jpg`, the
second receives `Smith, Ann - 12345 (1).jpg`. -/
theorem c1_witness :
    (processRows
        [Entry.mk "a.jpg" none none, Entry.mk "b.jpg" none none]
        (["a.jpg", "b.jpg"].map fun o =>
          Row.mk (some o) (some "12345") (some "Ann") (some "Smith"))).2
      = [RowResult.renamed "a.jpg" "Smith, Ann - 12345.jpg",
         RowResult.renamed "b.jpg" "Smith, Ann - 12345 (1).jpg"] := by
  have h := c1_renamer_collision_policy "Smith" "Ann" (some "12345") ".jpg"
    ["a.jpg", "b.jpg"]
    [Entry.mk "a.jpg" none none, Entry.mk "b.jpg" none none]
    (by decide) (by decide) (by decide) (by decide)
    (by intro o ho; fin_cases ho <;> exact ⟨by decide, by decide, by decide⟩)
    (cand_not_mem_of_short _ _ _ _ _ (by decide) (by decide))
    (by
      intro o ho
      fin_cases ho
      · exact ne_cand_of_short _ _ _ _ _ (by decide) (by decide)
      · exact ne_cand_of_short _ _ _ _ _ (by decide) (by decide))
  exact h.1.trans (by decide)

/--
**C3.**  For a row whose file-name, given-name and family-name are present,
when its referenced file exists and the base target is not already taken,
the renamer renames the file to exactly
`"{family-name}, {given-name} - {identity-number}{original-extension}"`,
where the identity number is the sentinel `"not admitted yet"` when the
`IC ID Number` field is missing or blank, and the field's own value
otherwise.
-/
theorem c3_base_target_name (dir : List Entry) (r : Row) (orig first last : String)
    (hfile : r.fileName = some orig) (hpref : r.preferred = some first)
    (hlast : r.last = some last)
    (ho : orig ≠ "") (hfi : first ≠ "") (hla : last ≠ "")
    (hfresh : (last ++ ", " ++ first ++ " - " ++ effIc r.icId ++ (splitExt orig).2)
      ∉ dirNames dir)
    (hmem : orig ∈ dirNames dir) :
    (processRow dir r).2 = RowResult.renamed orig
        (last ++ ", " ++ first ++ " - " ++ effIc r.icId ++ (splitExt orig).2)
    ∧ ((r.icId = none ∨ r.icId = some "") → effIc r.icId = sentinel)
    ∧ (∀ s, r.icId = some s → s ≠ "" → effIc r.icId = s) := by
  have hformula : cand last first (effIc r.icId) (splitExt orig).2 0
      = last ++ ", " ++ first ++ " - " ++ effIc r.icId ++ (splitExt orig).2 := by
    simp [cand_zero, nameStem, String.append_assoc]
  refine ⟨?_, ?_, ?_⟩
  · obtain ⟨rf, ric, rp, rl⟩ := r
    simp only at hfile hpref hlast
    subst hfile; subst hpref; subst hlast
    have hguard : ¬(orig = "" ∨ first = "" ∨ last = "") := by simp [ho, hfi, hla]
    have hres : resolveName (dirNames dir) last first (effIc ric) (splitExt orig).2
        = cand last first (effIc ric) (splitExt orig).2 0 := by
      refine resolveName_eq _ _ _ _ _ 0 ?_ (by omega)
      rw [hformula]
      exact hfresh
    simp only [processRow, if_neg hguard, hres, hformula, if_pos hmem]
  · rintro (hic | hic) <;> simp [effIc, hic]
  · intro s hs hsne
    simp [effIc, hs, hsne]

/-- Witness for `c3_base_target_name`: spec Scenario 2 — blank
`IC ID Number` yields `Smith, Ann - not admitted yet.jpg`. -/
theorem c3_witness :
    (processRow [Entry.mk "photo1.jpg" none none]
        (Row.mk (some "photo1.jpg") (some "") (some "Ann") (some "Smith"))).2
      = RowResult.renamed "photo1.jpg" "Smith, Ann - not admitted yet.jpg" := by
  have h := c3_base_target_name [Entry.mk "photo1.jpg" none none]
    (Row.mk (some "photo1.jpg") (some "") (some "Ann") (some "Smith"))
    "photo1.jpg" "Ann" "Smith" rfl rfl rfl (by decide) (by decide) (by decide)
    (by decide) (by decide)
  exact h.1.trans (by decide)

/-- `csv.DictReader` row lookup: the value stored under `key` when zipping
the header (field names) with a data row — the LAST occurrence of a
duplicated field name wins, a short row pads with `None`, and a missing
field yields `None` from `row.get`. -/
def dictGet (header row : List String) (key : String) : Option String :=
  (List.range header.length).foldl
    (fun acc i =>
      if header.getD i "" = key then
        (if i < row.length then some (row.getD i "") else none)
      else acc)
    none

/-- The four columns `process_zip_archive` reads from a `DictReader` row. -/
def mkRow (header row : List String) : Row :=
  Row.mk (dictGet header row "File name") (dictGet header row "IC ID Number")
    (dictGet header row "Preferred") (dictGet header row "Last")

/-- The structural test `process_zip_archive` applies to each archive entry
while scanning for the index CSV: the entry's name ends in `.csv`
case-insensitively AND its (decodable) first line contains `"File name"`. -/
def qualifies (e : Entry) : Bool :=
  csvExt e.name &&
    match e.firstLine with
    | some l => containsStr l headerLabel
    | none => false

/-- The scan over `zip_ref.namelist()`: the first qualifying entry's name,
or `none` when no entry qualifies. -/
def locateIndex : List Entry → Option String
  | [] => none
  | e :: rest => if qualifies e then some e.name else locateIndex rest

/-- One downloaded archive: whether it can be opened and extracted at all,
and its entries. -/
structure ArchiveData where
  ok : Bool
  entries : List Entry
deriving DecidableEq, Repr

/-- `process_zip_archive`: extract everything, locate the index CSV, and if
it was found and can be re-read, run the renaming pass over its rows;
returns the final directory contents and the located index name (which is
returned even when re-reading the located file fails, since the source
sets `index_csv_path` before opening it). -/
def process_zip_archive (a : ArchiveData) : List Entry × Option String :=
  if a.ok then
    match locateIndex a.entries with
    | none => (a.entries, none)
    | some idxName =>
      match (a.entries.find? (fun e => e.name == idxName)).bind Entry.csv with
      | none => (a.entries, some idxName)
      | some (h, rws) => ((processRows a.entries (rws.map (mkRow h))).1, some idxName)
  else ([], none)

theorem locateIndex_eq_none_iff (entries : List Entry) :
    locateIndex entries = none ↔ ∀ e ∈ entries, qualifies e = false := by
  induction entries with
  | nil => simp [locateIndex]
  | cons e rest ih =>
    by_cases hq : qualifies e
    · simp [locateIndex, hq]
    · simp only [locateIndex, if_neg hq, ih, List.mem_cons]
      constructor
      · rintro h x (rfl | hx)
        · simpa using hq
        · exact h x hx
      · intro h x hx
        exact h x (Or.inr hx)

theorem locateIndex_some_mem (entries : List Entry) (n : String)
    (h : locateIndex entries = some n) :
    ∃ e ∈ entries, qualifies e = true ∧ e.name = n := by
  induction entries with
  | nil => simp [locateIndex] at h
  | cons e rest ih =>
    by_cases hq : qualifies e
    · simp only [locateIndex, if_pos hq, Option.some.injEq] at h
      exact ⟨e, List.mem_cons_self e rest, hq, h⟩
    · simp only [locateIndex, if_neg hq] at h
      obtain ⟨x, hx, hxq, hxn⟩ := ih h
      exact ⟨x, List.mem_cons_of_mem e hx, hxq, hxn⟩

theorem locateIndex_first (pre : List Entry) (e : Entry) (post : List Entry)
    (hq : qualifies e = true) (hpre : ∀ x ∈ pre, qualifies x = false) :
    locateIndex (pre ++ e :: post) = some e.name := by
  induction pre with
  | nil => simp [locateIndex, hq]
  | cons x rest ih =>
    have hx : qualifies x = false := hpre x (List.mem_cons_self x rest)
    simp only [List.cons_append, locateIndex, hx, Bool.false_eq_true, if_false]
    exact ih fun y hy => hpre y (List.mem_cons_of_mem x hy)

/--
**C2 (amended).**  An archive entry qualifies as the IndexRecord source iff
its name ends in `.csv` (case-insensitively) AND its decodable first line
contains the literal label `"File name"`; the scan returns `none` exactly
when no entry qualifies, any returned name belongs to a qualifying entry,
and on a `none` outcome the archive has still been fully extracted.  (The
original claim — recognition by header content alone, with no filename
condition — is refuted by `c2_counterexample`.)
-/
theorem c2_index_recognition (entries : List Entry) :
    (locateIndex entries = none ↔ ∀ e ∈ entries, qualifies e = false)
    ∧ (∀ n, locateIndex entries = some n →
        ∃ e ∈ entries, qualifies e = true ∧ e.name = n)
    ∧ (locateIndex entries = none →
        process_zip_archive (ArchiveData.mk true entries) = (entries, none)) := by
  refine ⟨locateIndex_eq_none_iff entries, locateIndex_some_mem entries, ?_⟩
  intro hnone
  simp [process_zip_archive, hnone]

/--
**C2 (counterexample).**  A `.txt` entry whose first line contains the
header label `"File name"` is NOT recognized as the index: recognition also
requires the `.csv` filename pattern, contradicting "recognition is
structural, not by filename pattern".
-/
theorem c2_counterexample :
    locateIndex [Entry.mk "index.txt" (some "File name,Preferred,Last") none] = none
    ∧ containsStr "File name,Preferred,Last" headerLabel = true := by
  exact ⟨by decide, by decide⟩

/-- Witness for `c2_index_recognition`: a CSV with no marker in its header
is not located, and the archive is still fully extracted. -/
theorem c2_witness :
    process_zip_archive
        (ArchiveData.mk true [Entry.mk "data.csv" (some "a,b,c") none])
      = ([Entry.mk "data.csv" (some "a,b,c") none], none) :=
  (c2_index_recognition _).2.2 ((c2_index_recognition _).1.mpr (by decide))

/-- The aggregation state of `aggregate_index_csv`: the adopted master
header, the accumulated `master_rows` (header included once adopted), and
the mismatch warnings / read errors logged so far (by file path). -/
structure AggSt where
  header : Option (List String)
  rows : List (List String)
  warn : List String
  errs : List String
deriving DecidableEq, Repr

def initAgg : AggSt := AggSt.mk none [] [] []

/-- One iteration of the reading loop of `aggregate_index_csv` on an index
file given as its path and its parsed content (`none` when opening or
reading it raises): adopt the first header, warn on a mismatching later
header, and append all data rows positionally in every readable case. -/
def aggStep (st : AggSt) (f : String × Option (List String × List (List String))) : AggSt :=
  match f.2 with
  | none => { st with errs := st.errs ++ [f.1] }
  | some (h, rws) =>
    match st.header with
    | none => { st with header := some h, rows := st.rows ++ [h] ++ rws }
    | some mh =>
      if h = mh then { st with rows := st.rows ++ rws }
      else { st with rows := st.rows ++ rws, warn := st.warn ++ [f.1] }

/-- The whole reading loop of `aggregate_index_csv`. -/
def aggRead (files : List (String × Option (List String × List (List String)))) : AggSt :=
  files.foldl aggStep initAgg

/-- The data rows a single index file contributes. -/
def fileRows (f : String × Option (List String × List (List String))) :
    List (List String) :=
  match f.2 with
  | none => []
  | some p => p.2

/-- All data rows contributed by a list of index files, in order. -/
def readRows (files : List (String × Option (List String × List (List String)))) :
    List (List String) :=
  files.flatMap fileRows

/-- `header.index("Last") / ("Preferred") / ("File name")`: the three sort
column positions, `none` when any is absent (`list.index` raises). -/
def sortKeyIdx (h : List String) : Option (Nat × Nat × Nat) :=
  match h.indexOf? "Last", h.indexOf? "Preferred", h.indexOf? "File name" with
  | some a, some b, some c => some (a, b, c)
  | _, _, _ => none

/-- Whether a data row is long enough to index all three sort columns
(`r[idx]` raises otherwise). -/
def rowOk (k : Nat × Nat × Nat) (r : List String) : Bool :=
  decide (k.1 < r.length) && decide (k.2.1 < r.length) && decide (k.2.2 < r.length)

/-- The sort key `(r[last].lower(), r[preferred].lower(), r[file].lower())`
of a row (defaults never fire on rows accepted by `rowOk`). -/
def rowKey (k : Nat × Nat × Nat) (r : List String) : String × String × String :=
  (lowerStr (r.getD k.1 ""), lowerStr (r.getD k.2.1 ""), lowerStr (r.getD k.2.2 ""))

/-- Python's string `<`: lexicographic comparison by code point (`ord`). -/
def charListLt : List Char → List Char → Bool
  | [], [] => false
  | [], _ :: _ => true
  | _ :: _, [] => false
  | a :: as, b :: bs =>
    if a.toNat < b.toNat then true
    else if b.toNat < a.toNat then false
    else charListLt as bs

/-- Python's `s < t` on strings. -/
def strLtB (s t : String) : Bool := charListLt s.data t.data

/-- Python's lexicographic tuple comparison (`≤`) on the three string keys:
strict comparison on the first difference, equal tuples compare `≤`. -/
def tupLE (x y : String × String × String) : Bool :=
  if strLtB x.1 y.1 then true
  else if strLtB y.1 x.1 then false
  else if strLtB x.2.1 y.2.1 then true
  else if strLtB y.2.1 x.2.1 then false
  else !(strLtB y.2.2 x.2.2)

/-- Row comparison under the key tuple of the master header. -/
def rowLE (k : Nat × Nat × Nat) (r1 r2 : List String) : Bool :=
  tupLE (rowKey k r1) (rowKey k r2)

/-- The sorting step of `aggregate_index_csv` on `master_rows`: attempted
only when there is more than one line; any failure while resolving the
column positions or computing a row's key (short row) leaves the rows in
concatenation order.  Python's `sorted` is a stable ascending sort, modelled
by `List.mergeSort`. -/
def sortMaster (rows : List (List String)) : List (List String) :=
  match rows with
  | [] => []
  | [h] => [h]
  | h :: data =>
    match sortKeyIdx h with
    | none => h :: data
    | some k =>
      if data.all (rowOk k) then h :: data.mergeSort (rowLE k)
      else h :: data

/-- `aggregate_index_csv`: read every index file, sort, and write; returns
the written lines together with the mismatch warnings and read errors. -/
def aggregate_index_csv
    (files : List (String × Option (List String × List (List String)))) :
    List (List String) × List String × List String :=
  (sortMaster (aggRead files).rows, (aggRead files).warn, (aggRead files).errs)

theorem aggStep_some (st : AggSt) (f : String × Option (List String × List (List String)))
    (mh : List String) (hst : st.header = some mh) :
    (aggStep st f).header = some mh
    ∧ (aggStep st f).rows = st.rows ++ fileRows f
    ∧ ((aggStep st f).warn = st.warn ∨ (aggStep st f).warn = st.warn ++ [f.1]) := by
  rcases f with ⟨nm, fc⟩
  match fc with
  | none => exact ⟨hst, by simp [aggStep, fileRows], Or.inl rfl⟩
  | some (h, rws) =>
    by_cases he : h = mh
    · exact ⟨by simp [aggStep, hst, he], by simp [aggStep, hst, he, fileRows], Or.inl (by simp [aggStep, hst, he])⟩
    · exact ⟨by simp [aggStep, hst, he], by simp [aggStep, hst, he, fileRows], Or.inr (by simp [aggStep, hst, he])⟩

theorem foldl_aggStep_some (mh : List String) :
    ∀ (files : List (String × Option (List String × List (List String)))) (st : AggSt),
      st.header = some mh →
      (files.foldl aggStep st).header = some mh
      ∧ (files.foldl aggStep st).rows = st.rows ++ readRows files
      ∧ ∃ w, (files.foldl aggStep st).warn = st.warn ++ w := by
  intro files
  induction files with
  | nil => intro st h; exact ⟨h, by simp [readRows], ⟨[], by simp⟩⟩
  | cons f rest ih =>
    intro st hst
    obtain ⟨h1, h2, h3⟩ := aggStep_some st f mh hst
    obtain ⟨g1, g2, g3⟩ := ih (aggStep st f) h1
    refine ⟨g1, ?_, ?_⟩
    · rw [List.foldl_cons] at *
      rw [g2, h2]
      simp only [readRows, List.flatMap_cons, List.append_assoc]
    · obtain ⟨w, hw⟩ := g3
      rcases h3 with h3 | h3
      · exact ⟨w, by rw [List.foldl_cons, hw, h3]⟩
      · exact ⟨[f.1] ++ w, by rw [List.foldl_cons, hw, h3, List.append_assoc]⟩

theorem foldl_aggStep_unreadable :
    ∀ (pre : List (String × Option (List String × List (List String)))) (st : AggSt),
      (∀ f ∈ pre, f.2 = none) →
      (pre.foldl aggStep st).header = st.header
      ∧ (pre.foldl aggStep st).rows = st.rows
      ∧ (pre.foldl aggStep st).warn = st.warn := by
  intro pre
  induction pre with
  | nil => intro st _; exact ⟨rfl, rfl, rfl⟩
  | cons f rest ih =>
    intro st hall
    have hf : f.2 = none := hall f (List.mem_cons_self f rest)
    have hstep : aggStep st f = { st with errs := st.errs ++ [f.1] } := by
      rcases f with ⟨nm, fc⟩
      simp only at hf
      subst hf
      rfl
    rw [List.foldl_cons, hstep]
    exact ih _ (fun x hx => hall x (List.mem_cons_of_mem f hx))

theorem aggRead_first_readable
    (pre : List (String × Option (List String × List (List String))))
    (nm : String) (h : List String) (rws0 : List (List String))
    (post : List (String × Option (List String × List (List String))))
    (hpre : ∀ f ∈ pre, f.2 = none) :
    (aggRead (pre ++ (nm, some (h, rws0)) :: post)).header = some h
    ∧ (aggRead (pre ++ (nm, some (h, rws0)) :: post)).rows
        = h :: (rws0 ++ readRows post) := by
  unfold aggRead
  rw [List.foldl_append, List.foldl_cons]
  obtain ⟨h1, h2, _⟩ := foldl_aggStep_unreadable pre initAgg hpre
  set st := pre.foldl aggStep initAgg with hstdef
  have h1n : st.header = none := h1
  have h2n : st.rows = [] := h2
  have hstH : (aggStep st (nm, some (h, rws0))).header = some h := by
    simp [aggStep, h1n]
  have hstR : (aggStep st (nm, some (h, rws0))).rows = st.rows ++ [h] ++ rws0 := by
    simp [aggStep, h1n]
  obtain ⟨g1, g2, _⟩ := foldl_aggStep_some h post _ hstH
  refine ⟨g1, ?_⟩
  rw [g2, hstR, h2n]
  simp

theorem charListLt_asymm :
    ∀ as bs, charListLt as bs = true → charListLt bs as = false := by
  intro as
  induction as with
  | nil =>
    intro bs h
    cases bs with
    | nil => simp [charListLt] at h
    | cons b bs => rfl
  | cons a as ih =>
    intro bs h
    cases bs with
    | nil => simp [charListLt] at h
    | cons b bs =>
      simp only [charListLt] at h ⊢
      by_cases h1 : a.toNat < b.toNat
      · have h2 : ¬b.toNat < a.toNat := by omega
        simp [h1, h2]
      · by_cases h2 : b.toNat < a.toNat
        · simp [h1, h2] at h
        · simp only [h1, h2, if_false] at h ⊢
          exact ih bs h

theorem charListLt_conn :
    ∀ as bs, charListLt as bs = false → charListLt bs as = false → as = bs := by
  intro as
  induction as with
  | nil =>
    intro bs h1 _
    cases bs with
    | nil => rfl
    | cons b bs => simp [charListLt] at h1
  | cons a as ih =>
    intro bs h1 h2
    cases bs with
    | nil => simp [charListLt] at h2
    | cons b bs =>
      simp only [charListLt] at h1 h2
      by_cases g1 : a.toNat < b.toNat
      · simp [g1] at h1
      · by_cases g2 : b.toNat < a.toNat
        · simp [g1, g2] at h2
        · simp only [g1, g2, if_false] at h1 h2
          have hn : a.toNat = b.toNat := by omega
          have hab : a = b := Char.ext (UInt32.toNat.inj hn)
          rw [hab, ih bs h1 h2]

theorem charListLt_trans :
    ∀ as bs cs, charListLt as bs = true → charListLt bs cs = true →
      charListLt as cs = true := by
  intro as
  induction as with
  | nil =>
    intro bs cs h1 h2
    cases bs with
    | nil => simp [charListLt] at h1
    | cons b bs =>
      cases cs with
      | nil => simp [charListLt] at h2
      | cons c cs => rfl
  | cons a as ih =>
    intro bs cs h1 h2
    cases bs with
    | nil => simp [charListLt] at h1
    | cons b bs =>
      cases cs with
      | nil => simp [charListLt] at h2
      | cons c cs =>
        simp only [charListLt] at h1 h2 ⊢
        by_cases g1 : a.toNat < b.toNat <;> by_cases g2 : b.toNat < c.toNat
        · simp [show a.toNat < c.toNat by omega]
        · by_cases g3 : c.toNat < b.toNat
          · simp [g2, g3] at h2
          · simp [show a.toNat < c.toNat by omega]
        · by_cases g3 : b.toNat < a.toNat
          · simp [g1, g3] at h1
          · simp [show a.toNat < c.toNat by omega]
        · by_cases g3 : b.toNat < a.toNat
          · simp [g1, g3] at h1
          · by_cases g4 : c.toNat < b.toNat
            · simp [g2, g4] at h2
            · simp only [g1, g3, if_false] at h1
              simp only [g2, g4, if_false] at h2
              have e1 : ¬a.toNat < c.toNat := by omega
              have e2 : ¬c.toNat < a.toNat := by omega
              simp only [e1, e2, if_false]
              exact ih bs cs h1 h2

theorem strLtB_asymm {s t : String} (h : strLtB s t = true) : strLtB t s = false :=
  charListLt_asymm _ _ h

theorem strLtB_conn {s t : String} (h1 : strLtB s t = false)
    (h2 : strLtB t s = false) : s = t :=
  str_eq_of_data_eq (charListLt_conn _ _ h1 h2)

theorem strLtB_trans {s t u : String} (h1 : strLtB s t = true)
    (h2 : strLtB t u = true) : strLtB s u = true :=
  charListLt_trans _ _ _ h1 h2

theorem strLtB_irrefl (s : String) : strLtB s s = false := by
  cases h : strLtB s s with
  | false => rfl
  | true => exact absurd h (by simp [strLtB_asymm h])

theorem tupLE_iff (x y : String × String × String) :
    tupLE x y = true
      ↔ (strLtB x.1 y.1 = true
          ∨ (x.1 = y.1 ∧ (strLtB x.2.1 y.2.1 = true
              ∨ (x.2.1 = y.2.1 ∧ strLtB y.2.2 x.2.2 = false)))) := by
  by_cases a1 : strLtB x.1 y.1 = true
  · simp [tupLE, a1]
  · by_cases a2 : strLtB y.1 x.1 = true
    · have hne : x.1 ≠ y.1 := by
        rintro he
        rw [he] at a2
        exact absurd a2 (by simp [strLtB_irrefl])
      simp [tupLE, a1, a2, hne]
    · have he : x.1 = y.1 :=
        strLtB_conn (Bool.of_not_eq_true a1) (Bool.of_not_eq_true a2)
      by_cases c1 : strLtB x.2.1 y.2.1 = true
      · simp [tupLE, a1, a2, he, c1]
      · by_cases c2 : strLtB y.2.1 x.2.1 = true
        · have hne : x.2.1 ≠ y.2.1 := by
            rintro he2
            rw [he2] at c2
            exact absurd c2 (by simp [strLtB_irrefl])
          simp [tupLE, a1, a2, c1, c2, he, hne]
        · have he2 : x.2.1 = y.2.1 :=
            strLtB_conn (Bool.of_not_eq_true c1) (Bool.of_not_eq_true c2)
          by_cases e1 : strLtB y.2.2 x.2.2 = true
          · simp [tupLE, a1, a2, c1, c2, e1]
          · simp [tupLE, a1, a2, c1, c2, he, he2, Bool.of_not_eq_true e1]

theorem strLtB_not_lt_trans {s t u : String} (h1 : strLtB t s = false)
    (h2 : strLtB u t = false) : strLtB u s = false := by
  cases hc : strLtB u s with
  | false => rfl
  | true =>
    by_cases hd : strLtB t u = true
    · exact absurd (strLtB_trans hd hc) (by simp [h1])
    · have : t = u := strLtB_conn (Bool.of_not_eq_true hd) h2
      rw [← this] at hc
      exact absurd hc (by simp [h1])

theorem tupLE_trans {x y z : String × String × String}
    (hxy : tupLE x y = true) (hyz : tupLE y z = true) : tupLE x z = true := by
  rw [tupLE_iff] at hxy hyz ⊢
  rcases hxy with h1 | ⟨e1, h1⟩
  · rcases hyz with h2 | ⟨e2, h2⟩
    · exact Or.inl (strLtB_trans h1 h2)
    · exact Or.inl (e2 ▸ h1)
  · rcases hyz with h2 | ⟨e2, h2⟩
    · exact Or.inl (e1 ▸ h2)
    · refine Or.inr ⟨e1.trans e2, ?_⟩
      rcases h1 with g1 | ⟨f1, g1⟩
      · rcases h2 with g2 | ⟨f2, g2⟩
        · exact Or.inl (strLtB_trans g1 g2)
        · exact Or.inl (f2 ▸ g1)
      · rcases h2 with g2 | ⟨f2, g2⟩
        · exact Or.inl (f1 ▸ g2)
        · exact Or.inr ⟨f1.trans f2, strLtB_not_lt_trans g1 g2⟩

theorem tupLE_total (x y : String × String × String) :
    tupLE x y || tupLE y x := by
  rw [Bool.or_eq_true, tupLE_iff, tupLE_iff]
  by_cases a1 : strLtB x.1 y.1 = true
  · exact Or.inl (Or.inl a1)
  · by_cases a2 : strLtB y.1 x.1 = true
    · exact Or.inr (Or.inl a2)
    · have he : x.1 = y.1 :=
        strLtB_conn (Bool.of_not_eq_true a1) (Bool.of_not_eq_true a2)
      by_cases c1 : strLtB x.2.1 y.2.1 = true
      · exact Or.inl (Or.inr ⟨he, Or.inl c1⟩)
      · by_cases c2 : strLtB y.2.1 x.2.1 = true
        · exact Or.inr (Or.inr ⟨he.symm, Or.inl c2⟩)
        · have he2 : x.2.1 = y.2.1 :=
            strLtB_conn (Bool.of_not_eq_true c1) (Bool.of_not_eq_true c2)
          by_cases e1 : strLtB y.2.2 x.2.2 = true
          · exact Or.inr (Or.inr ⟨he.symm, Or.inr ⟨he2.symm, strLtB_asymm e1⟩⟩)
          · exact Or.inl (Or.inr ⟨he, Or.inr ⟨he2, Bool.of_not_eq_true e1⟩⟩)

theorem rowLE_trans (k : Nat × Nat × Nat) (a b c : List String) :
    rowLE k a b → rowLE k b c → rowLE k a c := by
  intro h1 h2
  exact tupLE_trans h1 h2

theorem rowLE_total (k : Nat × Nat × Nat) (a b : List String) :
    rowLE k a b || rowLE k b a :=
  tupLE_total _ _

theorem sortMaster_sorts (h : List String) (data : List (List String))
    (k : Nat × Nat × Nat) (hk : sortKeyIdx h = some k)
    (hall : data.all (rowOk k) = true) :
    sortMaster (h :: data) = h :: data.mergeSort (rowLE k) := by
  cases data with
  | nil => simp [sortMaster]
  | cons r rest => simp [sortMaster, hk, hall]

theorem sortMaster_id_of_none (h : List String) (data : List (List String))
    (hk : sortKeyIdx h = none) :
    sortMaster (h :: data) = h :: data := by
  cases data with
  | nil => simp [sortMaster]
  | cons r rest => simp [sortMaster, hk]

theorem sortMaster_id_of_bad_row (h : List String) (data : List (List String))
    (k : Nat × Nat × Nat) (hk : sortKeyIdx h = some k)
    (hbad : data.all (rowOk k) = false) :
    sortMaster (h :: data) = h :: data := by
  cases data with
  | nil => simp at hbad
  | cons r rest => simp [sortMaster, hk, hbad]

/--
**C4 (amended).**  For index files whose first readable file's header
contains the columns `Last`, `Preferred` and `File name`, and all of whose
data rows are long enough to index those three columns, the MasterIndex
starts with that first header, and its remaining lines are a permutation
of the concatenation of all data rows of all files, sorted ascending by
the case-insensitive (family-name, given-name, file-name) key tuple.  (The
original claim, with no row-length condition, is refuted by
`c4_counterexample`: a too-short row silently abandons sorting.)
-/
theorem c4_master_index_sorted
    (pre post : List (String × Option (List String × List (List String))))
    (nm : String) (h : List String) (rws0 : List (List String))
    (k : Nat × Nat × Nat)
    (hpre : ∀ f ∈ pre, f.2 = none)
    (hk : sortKeyIdx h = some k)
    (hall : ∀ r ∈ rws0 ++ readRows post, rowOk k r = true) :
    (aggregate_index_csv (pre ++ (nm, some (h, rws0)) :: post)).1
      = h :: (rws0 ++ readRows post).mergeSort (rowLE k)
    ∧ ((rws0 ++ readRows post).mergeSort (rowLE k)).Perm (rws0 ++ readRows post)
    ∧ ((rws0 ++ readRows post).mergeSort (rowLE k)).Pairwise
        (fun a b => rowLE k a b = true) := by
  obtain ⟨hH, hR⟩ := aggRead_first_readable pre nm h rws0 post hpre
  refine ⟨?_, List.mergeSort_perm _ _, ?_⟩
  · show sortMaster (aggRead _).rows = _
    rw [hR]
    exact sortMaster_sorts h _ k hk (List.all_eq_true.mpr fun x hx => hall x hx)
  · exact List.sorted_mergeSort (fun a b c => rowLE_trans k a b c)
      (fun a b => rowLE_total k a b) _

/--
**C4 (counterexample).**  A single readable index file whose header has all
three key columns but one of whose rows is too short: the MasterIndex keeps
concatenation order — `["b",...]` stays before `["a",...]`, which is not
sorted by the key tuple.
-/
theorem c4_counterexample :
    (aggregate_index_csv [("f", some (["Last", "Preferred", "File name"],
        [["b", "x", "x"], ["a", "x"]]))]).1
      = [["Last", "Preferred", "File name"], ["b", "x", "x"], ["a", "x"]]
    ∧ rowLE (0, 1, 2) ["b", "x", "x"] ["a", "x"] = false := by
  exact ⟨by decide, by decide⟩

/-- Witness for `c4_master_index_sorted`: spec Scenario 4 — two archives,
identical headers, 3 + 2 rows, merged and sorted case-insensitively. -/
theorem c4_witness :
    (aggregate_index_csv
        [("f1", some (["Last", "Preferred", "File name"],
            [["ADAMS", "Amy", "p4.jpg"], ["adams", "Zoe", "p3.jpg"],
             ["jones", "al", "p5.jpg"]])),
         ("f2", some (["Last", "Preferred", "File name"],
            [["Jones", "Bob", "p2.jpg"], ["smith", "ann", "p1.jpg"]]))]).1
      = [["Last", "Preferred", "File name"],
         ["ADAMS", "Amy", "p4.jpg"], ["adams", "Zoe", "p3.jpg"],
         ["jones", "al", "p5.jpg"], ["Jones", "Bob", "p2.jpg"],
         ["smith", "ann", "p1.jpg"]] := by
  have h := c4_master_index_sorted []
    [("f2", some (["Last", "Preferred", "File name"],
        [["Jones", "Bob", "p2.jpg"], ["smith", "ann", "p1.jpg"]]))]
    "f1" ["Last", "Preferred", "File name"]
    [["ADAMS", "Amy", "p4.jpg"], ["adams", "Zoe", "p3.jpg"], ["jones", "al", "p5.jpg"]]
    (0, 1, 2) (by decide) (by decide) (by decide)
  refine h.1.trans ?_
  rw [List.mergeSort_of_sorted (by decide)]
  decide

/--
**C5.**  A later index file whose header differs from the adopted master
header is non-fatal: its path is logged as a mismatch warning, yet every
one of its data rows is still appended positionally (no remapping, no row
dropped) under the master header.
-/
theorem c5_header_mismatch_nonfatal
    (pre post : List (String × Option (List String × List (List String))))
    (nm : String) (h2h : List String) (rws2 : List (List String)) (mh : List String)
    (hh : (aggRead pre).header = some mh) (hne : h2h ≠ mh) :
    (aggRead (pre ++ (nm, some (h2h, rws2)) :: post)).rows
      = (aggRead pre).rows ++ rws2 ++ readRows post
    ∧ nm ∈ (aggRead (pre ++ (nm, some (h2h, rws2)) :: post)).warn := by
  unfold aggRead at *
  rw [List.foldl_append, List.foldl_cons]
  set st := pre.foldl aggStep initAgg
  have hstep_h : (aggStep st (nm, some (h2h, rws2))).header = some mh := by
    simp [aggStep, hh, hne]
  have hstep_r : (aggStep st (nm, some (h2h, rws2))).rows = st.rows ++ rws2 := by
    simp [aggStep, hh, hne]
  have hstep_w : (aggStep st (nm, some (h2h, rws2))).warn = st.warn ++ [nm] := by
    simp [aggStep, hh, hne]
  obtain ⟨g1, g2, ⟨w, gw⟩⟩ := foldl_aggStep_some mh post _ hstep_h
  constructor
  · rw [g2, hstep_r, List.append_assoc]
  · rw [gw, hstep_w]
    simp

/-- Witness for `c5_header_mismatch_nonfatal`: a second file with header
`["X"]` still contributes its row, and its path is warned about. -/
theorem c5_witness :
    (aggRead [("f1", some (["Last", "Preferred", "File name"], [["r1", "", ""]])),
        ("f2", some (["X"], [["r2"]]))]).rows
      = [["Last", "Preferred", "File name"], ["r1", "", ""], ["r2"]]
    ∧ "f2" ∈ (aggRead [("f1", some (["Last", "Preferred", "File name"],
        [["r1", "", ""]])), ("f2", some (["X"], [["r2"]]))]).warn := by
  have h := c5_header_mismatch_nonfatal
    [("f1", some (["Last", "Preferred", "File name"], [["r1", "", ""]]))] []
    "f2" ["X"] [["r2"]] ["Last", "Preferred", "File name"] (by decide) (by decide)
  exact ⟨h.1.trans (by decide), h.2⟩

/--
**C7.**  The aggregation sort is idempotent: applying the sorting step to
its own output returns the identical row order (the comparator-based
stable sort leaves an already-sorted list unchanged; the abort branches
are fixed points by construction).
-/
theorem c7_sort_idempotent (rows : List (List String)) :
    sortMaster (sortMaster rows) = sortMaster rows := by
  match rows with
  | [] => rfl
  | [h] => rfl
  | h :: r :: data =>
    cases hk : sortKeyIdx h with
    | none =>
      rw [sortMaster_id_of_none h (r :: data) hk, sortMaster_id_of_none h (r :: data) hk]
    | some k =>
      by_cases hall : (r :: data).all (rowOk k) = true
      · rw [sortMaster_sorts h (r :: data) k hk hall]
        have hall2 : ((r :: data).mergeSort (rowLE k)).all (rowOk k) = true := by
          rw [List.all_eq_true] at hall ⊢
          intro x hx
          exact hall x (List.mem_mergeSort.mp hx)
        rw [sortMaster_sorts h _ k hk hall2]
        rw [List.mergeSort_of_sorted
          (List.sorted_mergeSort (fun a b c => rowLE_trans k a b c)
            (fun a b => rowLE_total k a b) (r :: data))]
      · have hbad : (r :: data).all (rowOk k) = false := by
          revert hall
          cases (r :: data).all (rowOk k) <;> simp
        rw [sortMaster_id_of_bad_row h (r :: data) k hk hbad,
          sortMaster_id_of_bad_row h (r :: data) k hk hbad]

/-- Witness for `c7_sort_idempotent` at a concrete sorted output. -/
theorem c7_witness :
    sortMaster (sortMaster [["Last", "Preferred", "File name"],
        [["b"], ["x"], ["x"]].flatten, ["a", "x", "x"]])
      = sortMaster [["Last", "Preferred", "File name"],
        [["b"], ["x"], ["x"]].flatten, ["a", "x", "x"]] :=
  c7_sort_idempotent _

/--
**C9.**  When the master header lacks one of the three key columns, or any
concatenated data row is too short to index one of them, the sorting step
fails internally, the failure is non-fatal, and the MasterIndex is written
with ALL data rows in unsorted concatenation order.
-/
theorem c9_sort_abort_writes_unsorted
    (pre post : List (String × Option (List String × List (List String))))
    (nm : String) (h : List String) (rws0 : List (List String))
    (hpre : ∀ f ∈ pre, f.2 = none)
    (hbad : sortKeyIdx h = none
      ∨ ∃ k, sortKeyIdx h = some k
          ∧ ∃ r ∈ rws0 ++ readRows post, rowOk k r = false) :
    (aggregate_index_csv (pre ++ (nm, some (h, rws0)) :: post)).1
      = h :: (rws0 ++ readRows post) := by
  obtain ⟨hH, hR⟩ := aggRead_first_readable pre nm h rws0 post hpre
  show sortMaster (aggRead _).rows = _
  rw [hR]
  rcases hbad with hk | ⟨k, hk, r, hr, hbadr⟩
  · exact sortMaster_id_of_none h _ hk
  · refine sortMaster_id_of_bad_row h _ k hk ?_
    rw [List.all_eq_false]
    exact ⟨r, hr, by simp [hbadr]⟩

/-- Witness for `c9_sort_abort_writes_unsorted`: one short row keeps the
whole output in concatenation order, and the file is still written. -/
theorem c9_witness :
    (aggregate_index_csv [("f", some (["Last", "Preferred", "File name"],
        [["b", "x", "x"], ["a", "x"], ["c", "y", "y"]]))]).1
      = [["Last", "Preferred", "File name"],
         ["b", "x", "x"], ["a", "x"], ["c", "y", "y"]] := by
  have h := c9_sort_abort_writes_unsorted [] [] "f"
    ["Last", "Preferred", "File name"]
    [["b", "x", "x"], ["a", "x"], ["c", "y", "y"]]
    (by decide)
    (Or.inr ⟨(0, 1, 2), by decide, ["a", "x"], by decide, by decide⟩)
  exact h.trans (by decide)

/-- `upload_extracted_files`: every file of the extraction directory is
uploaded except those that are index CSVs by the same structural test
(`.csv` name, first line contains `"File name"`); a file whose first line
cannot be read is uploaded anyway (the read error is only logged).
Returns the names handed to the upload collaborator, in listing order. -/
def upload_extracted_files (dir : List Entry) : List String :=
  dir.filterMap fun e => if qualifies e then none else some e.name

theorem locateIndex_mem_left (pre rest : List Entry)
    (hx : ∃ x ∈ pre, qualifies x = true) :
    ∃ y ∈ pre, locateIndex (pre ++ rest) = some y.name := by
  induction pre with
  | nil =>
    obtain ⟨x, hx, _⟩ := hx
    exact absurd hx (List.not_mem_nil x)
  | cons a pre ih =>
    by_cases ha : qualifies a
    · exact ⟨a, List.mem_cons_self _ _, by simp [locateIndex, ha]⟩
    · obtain ⟨x, hx2, hxq⟩ := hx
      rcases List.mem_cons.mp hx2 with rfl | hx3
      · exact absurd hxq (by simp [ha])
      · obtain ⟨y, hy, hyl⟩ := ih ⟨x, hx3, hxq⟩
        exact ⟨y, List.mem_cons_of_mem a hy, by simpa [locateIndex, ha] using hyl⟩

/--
**C8.**  Every file of an extraction directory whose name ends in `.csv`
(case-insensitively) and whose readable first line contains `"File name"`
is skipped from upload — not only the single entry located as the
archive's index; and such a file that is not the first qualifying entry is
also not the one whose path is collected for the MasterIndex aggregation.
-/
theorem c8_all_index_csvs_skipped (pre post : List Entry) (e : Entry)
    (hq : qualifies e = true)
    (hnd : (dirNames (pre ++ e :: post)).Nodup) :
    e.name ∉ upload_extracted_files (pre ++ e :: post)
    ∧ ((∃ x ∈ pre, qualifies x = true) →
        locateIndex (pre ++ e :: post) ≠ some e.name) := by
  have hee : e ∈ pre ++ e :: post :=
    List.mem_append_right _ (List.mem_cons_self _ _)
  constructor
  · intro hmem
    simp only [upload_extracted_files, List.mem_filterMap] at hmem
    obtain ⟨x, hx, hxe⟩ := hmem
    by_cases hxq : qualifies x
    · simp [hxq] at hxe
    · simp only [hxq, Bool.false_eq_true, if_false, Option.some.injEq] at hxe
      have hxeq : x = e :=
        List.inj_on_of_nodup_map (by simpa [dirNames] using hnd) hx hee hxe
      rw [hxeq] at hxq
      exact hxq hq
  · intro hx hloc
    obtain ⟨y, hy, hyl⟩ := locateIndex_mem_left pre (e :: post) hx
    rw [hloc] at hyl
    have hyn : y.name = e.name := by
      simpa using hyl.symm
    simp only [dirNames, List.map_append] at hnd
    have hdisj := (List.nodup_append.mp hnd).2.2
    refine hdisj (a := y.name) (List.mem_map_of_mem Entry.name hy) ?_
    rw [hyn]
    simp

/-- Witness for `c8_all_index_csvs_skipped`: a second qualifying payload
CSV is neither uploaded nor located as the index. -/
theorem c8_witness :
    "extra.CSV" ∉ upload_extracted_files
        [Entry.mk "index.csv" (some "File name,Last") none,
         Entry.mk "extra.CSV" (some "x,File name,y") none,
         Entry.mk "photo.jpg" none none]
    ∧ locateIndex
        [Entry.mk "index.csv" (some "File name,Last") none,
         Entry.mk "extra.CSV" (some "x,File name,y") none,
         Entry.mk "photo.jpg" none none] ≠ some "extra.CSV" := by
  have h := c8_all_index_csvs_skipped
    [Entry.mk "index.csv" (some "File name,Last") none]
    [Entry.mk "photo.jpg" none none]
    (Entry.mk "extra.CSV" (some "x,File name,y") none)
    (by decide) (by decide)
  exact ⟨h.1, h.2 ⟨Entry.mk "index.csv" (some "File name,Last") none,
    List.mem_cons_self _ _, by decide⟩⟩

/-- One remote file as the SFTP loop sees it: its name, whether `sftp.get`
succeeds, and whether `sftp.remove` succeeds. -/
structure RemoteFile where
  name : String
  fetchOk : Bool
  deleteOk : Bool
deriving DecidableEq, Repr

/-- The per-file fetch-then-delete loop of `download_files_from_sftp` over
the matching files: a failed fetch skips both the download list and the
delete, a failed delete after a successful fetch keeps the file in the
returned download list.  Returns (downloaded names, deleted names). -/
def download_files_from_sftp : List RemoteFile → List String × List String
  | [] => ([], [])
  | f :: fs =>
    let rest := download_files_from_sftp fs
    if f.fetchOk then
      if f.deleteOk then (f.name :: rest.1, f.name :: rest.2)
      else (f.name :: rest.1, rest.2)
    else rest

theorem download_subset_names (files : List RemoteFile) :
    (download_files_from_sftp files).1 ⊆ files.map RemoteFile.name
    ∧ (download_files_from_sftp files).2 ⊆ files.map RemoteFile.name := by
  induction files with
  | nil => exact ⟨fun a h => h, fun a h => h⟩
  | cons f fs ih =>
    constructor <;> intro a ha <;>
      simp only [download_files_from_sftp] at ha <;>
      by_cases h1 : f.fetchOk <;> by_cases h2 : f.deleteOk <;>
      simp only [h1, h2, if_true, if_false, Bool.false_eq_true] at ha
    all_goals
      first
      | (rcases List.mem_cons.mp ha with rfl | ha2
         · exact List.mem_cons_self _ _
         · first
           | exact List.mem_cons_of_mem _ (ih.1 ha2)
           | exact List.mem_cons_of_mem _ (ih.2 ha2))
      | exact List.mem_cons_of_mem _ (ih.1 ha)
      | exact List.mem_cons_of_mem _ (ih.2 ha)

/--
**C10.**  A remote file is deleted only after its download succeeded:
every deleted file is in the returned download list; a file whose fetch
fails is neither downloaded nor deleted and later files are still
processed; a file whose fetch succeeds is in the returned list even when
its remote delete fails, and is then not among the deleted ones.
-/
theorem c10_fetch_then_delete (files : List RemoteFile)
    (hnd : (files.map RemoteFile.name).Nodup) :
    ((download_files_from_sftp files).2 ⊆ (download_files_from_sftp files).1)
    ∧ (∀ f ∈ files, f.fetchOk = false →
        f.name ∉ (download_files_from_sftp files).1
        ∧ f.name ∉ (download_files_from_sftp files).2)
    ∧ (∀ f ∈ files, f.fetchOk = true →
        f.name ∈ (download_files_from_sftp files).1)
    ∧ (∀ f ∈ files, f.fetchOk = true → f.deleteOk = false →
        f.name ∉ (download_files_from_sftp files).2) := by
  induction files with
  | nil =>
    exact ⟨fun a h => h, fun f hf => absurd hf (List.not_mem_nil f),
      fun f hf => absurd hf (List.not_mem_nil f),
      fun f hf => absurd hf (List.not_mem_nil f)⟩
  | cons f fs ih =>
    have hnm : f.name ∉ fs.map RemoteFile.name := (List.nodup_cons.mp hnd).1
    obtain ⟨ih1, ih2, ih3, ih4⟩ := ih (List.nodup_cons.mp hnd).2
    have hnotdl : f.name ∉ (download_files_from_sftp fs).1 :=
      fun hc => hnm ((download_subset_names fs).1 hc)
    have hnotdel : f.name ∉ (download_files_from_sftp fs).2 :=
      fun hc => hnm ((download_subset_names fs).2 hc)
    have hother : ∀ g ∈ fs, g.name ∈ (download_files_from_sftp fs).1 →
        g.name ∈ (download_files_from_sftp (f :: fs)).1 := by
      intro g hg hgm
      simp only [download_files_from_sftp]
      by_cases h1 : f.fetchOk <;> by_cases h2 : f.deleteOk <;>
        simp [h1, h2, hgm]
    refine ⟨?_, ?_, ?_, ?_⟩
    · intro a ha
      simp only [download_files_from_sftp] at ha ⊢
      by_cases h1 : f.fetchOk <;> by_cases h2 : f.deleteOk <;>
        simp only [h1, h2, if_true, if_false, Bool.false_eq_true] at ha ⊢
      · rcases List.mem_cons.mp ha with rfl | ha2
        · exact List.mem_cons_self _ _
        · exact List.mem_cons_of_mem _ (ih1 ha2)
      · exact List.mem_cons_of_mem _ (ih1 ha)
      · exact ih1 ha
      · exact ih1 ha
    · intro g hg hgf
      rcases List.mem_cons.mp hg with rfl | hg2
      · simp only [download_files_from_sftp, hgf, Bool.false_eq_true, if_false]
        exact ⟨hnotdl, hnotdel⟩
      · obtain ⟨ha, hb⟩ := ih2 g hg2 hgf
        simp only [download_files_from_sftp]
        by_cases h1 : f.fetchOk <;> by_cases h2 : f.deleteOk <;>
          simp only [h1, h2, if_true, if_false, Bool.false_eq_true] <;>
          constructor <;>
          first
          | (intro hc
             rcases List.mem_cons.mp hc with he | hc2
             · exact hnm (he ▸ List.mem_map_of_mem RemoteFile.name hg2)
             · first | exact ha hc2 | exact hb hc2)
          | exact ha
          | exact hb
    · intro g hg hgf
      rcases List.mem_cons.mp hg with rfl | hg2
      · simp only [download_files_from_sftp, hgf, if_true]
        by_cases h2 : g.deleteOk <;> simp [h2]
      · exact hother g hg2 (ih3 g hg2 hgf)
    · intro g hg hgf hgd
      rcases List.mem_cons.mp hg with rfl | hg2
      · simp only [download_files_from_sftp, hgf, hgd, if_true,
          Bool.false_eq_true, if_false]
        exact hnotdel
      · have hb := ih4 g hg2 hgf hgd
        simp only [download_files_from_sftp]
        by_cases h1 : f.fetchOk <;> by_cases h2 : f.deleteOk <;>
          simp only [h1, h2, if_true, if_false, Bool.false_eq_true]
        · intro hc
          rcases List.mem_cons.mp hc with he | hc2
          · exact hnm (he ▸ List.mem_map_of_mem RemoteFile.name hg2)
          · exact hb hc2
        · exact hb
        · exact hb
        · exact hb

/-- Witness for `c10_fetch_then_delete`: a failed fetch, a failed delete
and a clean transfer in one listing. -/
theorem c10_witness :
    ((download_files_from_sftp
        [RemoteFile.mk "a.zip" false true, RemoteFile.mk "b.zip" true false,
         RemoteFile.mk "c.zip" true true]).2
      ⊆ (download_files_from_sftp
        [RemoteFile.mk "a.zip" false true, RemoteFile.mk "b.zip" true false,
         RemoteFile.mk "c.zip" true true]).1)
    ∧ "a.zip" ∉ (download_files_from_sftp
        [RemoteFile.mk "a.zip" false true, RemoteFile.mk "b.zip" true false,
         RemoteFile.mk "c.zip" true true]).1
    ∧ "b.zip" ∈ (download_files_from_sftp
        [RemoteFile.mk "a.zip" false true, RemoteFile.mk "b.zip" true false,
         RemoteFile.mk "c.zip" true true]).1
    ∧ "b.zip" ∉ (download_files_from_sftp
        [RemoteFile.mk "a.zip" false true, RemoteFile.mk "b.zip" true false,
         RemoteFile.mk "c.zip" true true]).2 := by
  have h := c10_fetch_then_delete
    [RemoteFile.mk "a.zip" false true, RemoteFile.mk "b.zip" true false,
     RemoteFile.mk "c.zip" true true] (by decide)
  exact ⟨h.1,
    (h.2.1 (RemoteFile.mk "a.zip" false true) (List.mem_cons_self _ _) rfl).1,
    h.2.2.1 (RemoteFile.mk "b.zip" true false)
      (List.mem_cons_of_mem _ (List.mem_cons_self _ _)) rfl,
    h.2.2.2 (RemoteFile.mk "b.zip" true false)
      (List.mem_cons_of_mem _ (List.mem_cons_self _ _)) rfl rfl⟩

/-- `process_all_zip_archives`: per archive, extract/rename, upload the
non-index files of its extraction directory, and collect the located index
path together with the content now stored under that name (what the later
aggregation pass will read).  Returns the collected index files and every
file name handed to the upload collaborator. -/
def process_all_zip_archives :
    List ArchiveData →
      List (String × Option (List String × List (List String))) × List String
  | [] => ([], [])
  | a :: rest =>
    let pr := process_zip_archive a
    let ups := upload_extracted_files pr.1
    let rec2 := process_all_zip_archives rest
    let contrib :=
      match pr.2 with
      | some n => [(n, (pr.1.find? (fun e => e.name == n)).bind Entry.csv)]
      | none => []
    (contrib ++ rec2.1, ups ++ rec2.2)

/-- The observable outcome of one run of `__main__`. -/
structure OrchResult where
  exitCode : Option Nat
  uploads : List String
  masterUploaded : Bool
  master : Option (List (List String))
deriving DecidableEq, Repr

/-- The `__main__` orchestration: abort with exit code 1 when the SFTP
step downloaded nothing (before the Drive service is even initialized),
otherwise process every archive, aggregate the collected index files and
upload the MasterIndex. -/
def runMain (downloaded : List ArchiveData) : OrchResult :=
  if downloaded.isEmpty then OrchResult.mk (some 1) [] false none
  else
    let pr := process_all_zip_archives downloaded
    OrchResult.mk none pr.2 true (some (aggregate_index_csv pr.1).1)

/--
**C6.**  If the retrieval step yields zero archives, the run halts with
exit code 1 before any upload is attempted (no per-archive upload, no
MasterIndex upload); with at least one archive, every per-archive failure
is non-fatal — the run always reaches the end, a MasterIndex is produced
and its upload is attempted.
-/
theorem c6_zero_archives_fail_fast (downloaded : List ArchiveData) :
    (downloaded = [] →
      runMain downloaded = OrchResult.mk (some 1) [] false none)
    ∧ (downloaded ≠ [] →
      (runMain downloaded).exitCode = none
      ∧ (runMain downloaded).master.isSome = true
      ∧ (runMain downloaded).masterUploaded = true) := by
  constructor
  · rintro rfl
    rfl
  · intro h
    have hne : downloaded.isEmpty = false := by
      cases downloaded with
      | nil => exact absurd rfl h
      | cons a rest => rfl
    simp [runMain, hne]

/-- Witness for `c6_zero_archives_fail_fast`: the empty download aborts
with exit 1 and zero uploads; a single unreadable archive still lets the
run finish with a MasterIndex. -/
theorem c6_witness :
    runMain [] = OrchResult.mk (some 1) [] false none
    ∧ (runMain [ArchiveData.mk false []]).exitCode = none := by
  refine ⟨(c6_zero_archives_fail_fast []).1 rfl, ?_⟩
  exact ((c6_zero_archives_fail_fast [ArchiveData.mk false []]).2 (by simp)).1

end SFTPDrive
